import Mathlib

/-!
Shallow embedding of the `spew` status-line generator (package `spew`,
files `spew.go`, `main.go`, `cmd/spew/main.go`).

The canonical engine is the library function `Spew` in `spew.go`; the claims
are settled against it.  External effects (the shell, the template engine)
enter the model as oracle parameters:

* `cmd : String → String × Bool` models `runCommand` (combined output,
  success flag; `false` plays the role of a non-nil Go error),
* `eval : Table → String` models one successful execution of the parsed
  template against the current value table (`template.Execute` + flush;
  render failures are abstracted as success, no claim concerns them),
* `tmplOk : Bool` models whether `template.Parse(c.Template)` succeeds.

Go channels and `select` are modelled by explicit event traces: the order in
which the supervisor loop observes deliveries on `ctx.Done()`, `errChan`
and `outChan`.  Producers (`timerSource`, `listenerSource`, `readLines`)
are modelled as functions from their own delivery schedules to the list of
channel emissions they perform, transcribed case-by-case from the Go
`select` statements.
-/

set_option autoImplicit false

namespace SpewModel

/-- Go `Source`: one `[[sources]]` entry of the TOML config.  The Go field
`Type` is spelled `TypeStr` because `Type` is reserved in Lean. -/
structure Source where
  Name : String
  TypeStr : String
  Script : String
deriving DecidableEq, Repr

/-- Go `Config`: the parsed TOML config file. -/
structure Config where
  Template : String
  Sources : List Source
deriving DecidableEq, Repr

/-- Whether the char list `sub` is a prefix of `s` (char-for-char). -/
def listStartsWith : List Char → List Char → Bool
  | _, [] => true
  | [], _ :: _ => false
  | a :: s, b :: t => a = b && listStartsWith s t

/-- Go `strings.Contains(s, sub)` on char lists: substring occurrence. -/
def goContains : List Char → List Char → Bool
  | [], sub => sub.isEmpty
  | c :: s, sub => listStartsWith (c :: s) sub || goContains s sub

/-- Go `strings.Contains(s, sub)` on strings. -/
def goContainsStr (s sub : String) : Bool :=
  goContains s.data sub.data

/-- Go `strings.ReplaceAll(s, string(c), "")` for a single-character
pattern and empty replacement: every occurrence of `c` is removed. -/
def removeAll (c : Char) : List Char → List Char
  | [] => []
  | x :: xs => if x = c then removeAll c xs else x :: removeAll c xs

/-- `sanitize` from `spew.go`: remove every `\n`, then every `\r`. -/
def sanitize (s : List Char) : List Char :=
  removeAll '\r' (removeAll '\n' s)

/-- `sanitize` lifted to `String`. -/
def sanitizeStr (s : String) : String :=
  ⟨sanitize s.data⟩

/-- Go `strings.isSeparator`, ASCII branch transcribed exactly: an ASCII
rune is a separator unless it is a digit, a letter or `_`.  The non-ASCII
branch (Unicode letter/digit/space classes) is out of the model's scope:
non-ASCII chars are treated as non-separators, and every theorem that
depends on word boundaries restricts itself to ASCII data. -/
def goIsSeparator (c : Char) : Bool :=
  if c.toNat ≤ 0x7F then
    !((('0' ≤ c && c ≤ '9') || ('a' ≤ c && c ≤ 'z') ||
       ('A' ≤ c && c ≤ 'Z')) || c = '_')
  else
    false

/-- Go `unicode.ToTitle` restricted to ASCII, where it coincides with
`ToUpper` (Lean's `Char.toUpper` uppercases exactly ASCII letters). -/
def goToTitle (c : Char) : Char :=
  c.toUpper

/-- The `strings.Map` body of Go `strings.Title`: each rune that follows a
separator (tracked in `prev`, initially `' '`) is title-cased. -/
def goTitleAux : Char → List Char → List Char
  | _, [] => []
  | prev, c :: cs =>
      (if goIsSeparator prev then goToTitle c else c) :: goTitleAux c cs

/-- Go `strings.Title(s)`: uppercase the first letter of every word. -/
def goTitle (s : List Char) : List Char :=
  goTitleAux ' ' s

/-- Go `strings.Title` lifted to `String`. -/
def goTitleStr (s : String) : String :=
  ⟨goTitle s.data⟩

/-- Modelled from the spec's words for comparison (claim C4): "the source
name capitalized by uppercasing its first letter (and otherwise
unchanged)". -/
def specCapitalizeFirst (s : String) : String :=
  match s.data with
  | [] => ""
  | c :: cs => ⟨c.toUpper :: cs⟩

/-- The value table `templateCtx`: Go map from capitalized source name to
latest sanitized value, modelled as an association list with in-place
overwrite. -/
abbrev Table := List (String × String)

/-- Map update `templateCtx[k] = v`: overwrite the existing binding of `k`
or append a new one. -/
def tableInsert (k v : String) : Table → Table
  | [] => [(k, v)]
  | (k', v') :: t => if k' = k then (k, v) :: t else (k', v') :: tableInsert k v t

/-- Map lookup `templateCtx[k]`. -/
def tableGet (k : String) : Table → Option String
  | [] => none
  | (k', v) :: t => if k' = k then some v else tableGet k t

/-- The errors `Spew` and its producers build with `fmt.Errorf`, as a
closed enumeration (the spec's RunError plus the supervisor's own
failures). -/
inductive SpewError where
  | templateParse
  | commandRun (script out : String)
  | unsupportedType (t : String)
  | durationParse (suffix : String)
  | stdoutPipe (script : String)
  | stderrPipe (script : String)
  | commandStart (script : String)
  | readFail
deriving DecidableEq, Repr

/-- One delivery observed by the supervisor's `select`: `ctx.Done()`
(external cancellation), a value on `errChan`, or a value on `outChan`
(the `output{Name, Value}` record). -/
inductive Event where
  | cancel
  | errE (e : SpewError)
  | outE (n v : String)
deriving DecidableEq, Repr

/-- How the run of `Spew` ended: `running` means the event trace was
exhausted with the loop still blocked in `select`; `success` models
`return nil`; `failure e` models `return e`. -/
inductive RunResult where
  | running
  | success
  | failure (e : SpewError)
deriving DecidableEq, Repr

/-- The supervisor's mutable state: the value table and the sequence of
renders written (and flushed) to the output writer so far. -/
structure LoopState where
  table : Table
  writes : List String
deriving DecidableEq, Repr

/-- The `for { select { ... } }` event loop of `Spew` (spew.go lines
83-96): cancellation returns `nil`, an error is returned as the result, a
value record updates `templateCtx[strings.Title(o.Name)] = sanitize(o.Value)`
and triggers one render of the updated table. -/
def runLoop (eval : Table → String) : LoopState → List Event → RunResult × LoopState
  | st, [] => (.running, st)
  | st, .cancel :: _ => (.success, st)
  | st, .errE e :: _ => (.failure e, st)
  | st, .outE n v :: rest =>
      let t := tableInsert (goTitleStr n) (sanitizeStr v) st.table
      runLoop eval ⟨t, st.writes ++ [eval t]⟩ rest

/-- A producer goroutine started by the dispatch loop. -/
inductive Launch where
  | timer (s : Source)
  | listener (s : Source)
deriving DecidableEq, Repr

/-- The dispatch loop of `Spew` (spew.go lines 61-81): for each source, in
order, test `strings.Contains` on `"timer"`, `"listen"`, `"once"`; timer
and listener sources are launched as goroutines, a once source runs
`runCommand` inline (aborting the run on failure) and renders, and any
other type aborts with `unsupported source type`.  Returns the state after
the loop, the launches performed, and the error that stopped it (if any). -/
def setupPhase (cmd : String → String × Bool) (eval : Table → String) :
    List Source → LoopState → LoopState × List Launch × Option SpewError
  | [], st => (st, [], none)
  | s :: rest, st =>
    if goContainsStr s.TypeStr "timer" then
      let (st', ls, e) := setupPhase cmd eval rest st
      (st', .timer s :: ls, e)
    else if goContainsStr s.TypeStr "listen" then
      let (st', ls, e) := setupPhase cmd eval rest st
      (st', .listener s :: ls, e)
    else if goContainsStr s.TypeStr "once" then
      let (o, ok) := cmd s.Script
      if ok then
        let t := tableInsert (goTitleStr s.Name) (sanitizeStr o) st.table
        setupPhase cmd eval rest ⟨t, st.writes ++ [eval t]⟩
      else
        (st, [], some (.commandRun s.Script o))
    else
      (st, [], some (.unsupportedType s.TypeStr))

/-- The outcome of one modelled run of `Spew`: the result, the final value
table, every render written, the producers launched, and whether the
`defer cancel()` installed at spew.go line 58 has fired (it fires exactly
when `Spew` returns after creating the cancellable context). -/
structure SpewResult where
  res : RunResult
  table : Table
  writes : List String
  launched : List Launch
  cancelFired : Bool
deriving DecidableEq, Repr

/-- Whether a `RunResult` is an actual return of `Spew`. -/
def returned : RunResult → Bool
  | .running => false
  | .success => true
  | .failure _ => true

/-- `Spew(mainCtx, c, w)` (spew.go lines 33-97): parse the template (its
failure returns before `context.WithCancel`, so `cancelFired = false`
there), run the dispatch loop, then drive the event loop over the given
delivery trace.  Every return after the dispatch loop starts passes
through `defer cancel()`. -/
def spewModel (cmd : String → String × Bool) (eval : Table → String)
    (tmplOk : Bool) (c : Config) (trace : List Event) : SpewResult :=
  match tmplOk with
  | false => ⟨.failure .templateParse, [], [], [], false⟩
  | true =>
    match setupPhase cmd eval c.Sources ⟨[], []⟩ with
    | (st, ls, some e) => ⟨.failure e, st.table, st.writes, ls, true⟩
    | (st, ls, none) =>
        let (r, st') := runLoop eval st trace
        ⟨r, st'.table, st'.writes, ls, returned r⟩

/-- One send a producer goroutine performs: a record on `outChan` or an
error on `errChan`. -/
inductive Emission where
  | toOut (n v : String)
  | toErr (e : SpewError)
deriving DecidableEq, Repr

/-- The supervisor-side delivery of an emission (the matching `select`
case in the event loop). -/
def emitEvent : Emission → Event
  | .toOut n v => .outE n v
  | .toErr e => .errE e

/-- How the start of `timerSource` (spew.go lines 112-120) plays out:
`parts := strings.Split(s.Type, ":")` followed by
`time.ParseDuration(parts[1])`.  `parseOk` is the oracle for
`time.ParseDuration` succeeding on a given suffix.  When `parts` has no
index 1 (no `:` in the type string) the Go code panics with an index
out-of-range runtime error; when the suffix does not parse, the error is
sent on `errChan` and the goroutine returns; otherwise the ticker loop is
entered. -/
inductive TimerStartResult where
  | indexOutOfRange
  | emitErr (e : SpewError)
  | proceed (suffix : String)
deriving DecidableEq, Repr

/-- Go `strings.Split(s, sep)` for the single-character separator the code
uses (`":"`): the substrings of `s` between occurrences of `sep`, in
order; the result is never empty (`Split("", ":") = [""]`,
`Split("timer", ":") = ["timer"]`).  `acc` is the current chunk. -/
def goSplitAux (sep : Char) (acc : List Char) : List Char → List (List Char)
  | [] => [acc]
  | c :: cs =>
      if c = sep then acc :: goSplitAux sep [] cs
      else goSplitAux sep (acc ++ [c]) cs

/-- Go `strings.Split` on strings (single-character separator). -/
def goSplit (s : String) (sep : Char) : List String :=
  (goSplitAux sep [] s.data).map (fun l => ⟨l⟩)

/-- The duration-parsing prologue of `timerSource`:
`parts := strings.Split(s.Type, ":")` then `time.ParseDuration(parts[1])`. -/
def timerStart (parseOk : String → Bool) (s : Source) : TimerStartResult :=
  let parts := goSplit s.TypeStr ':'
  match parts[1]? with
  | none => .indexOutOfRange
  | some suffix =>
      if parseOk suffix then .proceed suffix
      else .emitErr (.durationParse suffix)

/-- One delivery observed by the `select` inside the `listenerSource` loop
(spew.go lines 190-224): `ctx.Done()`, an error from either `readLines`
goroutine, or a line from either stream. -/
inductive LDeliv where
  | ctxDone
  | stdoutFail (e : SpewError)
  | stderrFail (e : SpewError)
  | stdoutLine (l : String)
  | stderrLine (l : String)
deriving DecidableEq, Repr

/-- The `for { select { ... } }` loop of `listenerSource` in `spew.go`
(lines 190-224), as a function from the delivery schedule to the
emissions performed (the inner `ctx.Done()` guards are taken in their
not-yet-cancelled branch; cancellation is the `ctxDone` delivery).  A
stdout line is forwarded to `outChan` and the loop continues; a read
error from either stream is forwarded to `errChan` and the goroutine
returns; a stderr line is forwarded to `outChan` as a value record and
then the goroutine returns. -/
def listenerLoop (s : Source) : List LDeliv → List Emission
  | [] => []
  | .ctxDone :: _ => []
  | .stdoutFail e :: _ => [.toErr e]
  | .stderrFail e :: _ => [.toErr e]
  | .stdoutLine l :: rest => .toOut s.Name l :: listenerLoop s rest
  | .stderrLine l :: _ => [.toOut s.Name l]

/-- `readLines` (spew.go lines 226-250): repeated
`bufr.ReadString('\n')`. Given the bytes available on the stream so far,
the lines sent on the reader's output channel, in order; each line keeps
its trailing `'\n'`, and a trailing fragment with no newline is never
sent as a line (when the stream ends, `ReadString` returns it with an
error and `readLines` sends the error instead). `acc` is the partial
line read so far. -/
def readLinesAux (acc : List Char) : List Char → List (List Char)
  | [] => []
  | c :: cs =>
      if c = '\n' then (acc ++ [c]) :: readLinesAux [] cs
      else readLinesAux (acc ++ [c]) cs

/-- The complete newline-terminated lines of a stream, in delivery order. -/
def readLinesModel (content : String) : List String :=
  (readLinesAux [] content.data).map (fun l => ⟨l⟩)

/-- Whether an event is a value-record delivery on `outChan` (as opposed
to cancellation or an error). -/
def isOutEvent : Event → Bool
  | .outE _ _ => true
  | _ => false

/-- Whether the dispatch `switch` matches one of the three source kinds
(otherwise the `default` branch aborts the run). -/
def dispatchable (s : Source) : Bool :=
  goContainsStr s.TypeStr "timer" || goContainsStr s.TypeStr "listen" ||
    goContainsStr s.TypeStr "once"

/-- Whether the dispatch `switch` takes the `"once"` branch for this
source (its type contains `"once"` and neither of the two
higher-priority substrings). -/
def isOnceDispatch (s : Source) : Bool :=
  !goContainsStr s.TypeStr "timer" && !goContainsStr s.TypeStr "listen" &&
    goContainsStr s.TypeStr "once"

/-- The producers the dispatch loop launches for a source list it fully
traverses (used to state which goroutines exist before a failure). -/
def launchesOf : List Source → List Launch
  | [] => []
  | s :: rest =>
      if goContainsStr s.TypeStr "timer" then .timer s :: launchesOf rest
      else if goContainsStr s.TypeStr "listen" then .listener s :: launchesOf rest
      else launchesOf rest

/-- The value table produced by running a list of `"once"` sources in
order against an initially given table: each inserts its sanitized
combined output under its Title-cased name. -/
def onceTable (cmd : String → String × Bool) : List Source → Table → Table
  | [], t => t
  | s :: rest, t =>
      onceTable cmd rest
        (tableInsert (goTitleStr s.Name) (sanitizeStr (cmd s.Script).1) t)

/-- The renders produced by running a list of `"once"` sources in order:
one render of the just-updated table per source. -/
def onceWrites (cmd : String → String × Bool) (eval : Table → String) :
    List Source → Table → List String
  | [], _ => []
  | s :: rest, t =>
      let t' := tableInsert (goTitleStr s.Name) (sanitizeStr (cmd s.Script).1) t
      eval t' :: onceWrites cmd eval rest t'

/-! ### Lemmas about `removeAll` and `sanitize` -/

lemma not_mem_removeAll (c : Char) (l : List Char) : c ∉ removeAll c l := by
  induction l with
  | nil => simp [removeAll]
  | cons x xs ih =>
      by_cases h : x = c
      · simpa [removeAll, h] using ih
      · simp only [removeAll, if_neg h, List.mem_cons, not_or]
        exact ⟨fun hc => h hc.symm, ih⟩

lemma mem_of_mem_removeAll {x c : Char} {l : List Char}
    (h : x ∈ removeAll c l) : x ∈ l := by
  induction l with
  | nil => simp [removeAll] at h
  | cons y ys ih =>
      by_cases hy : y = c
      · simp only [removeAll, if_pos hy] at h
        exact List.mem_cons_of_mem _ (ih h)
      · simp only [removeAll, if_neg hy, List.mem_cons] at h
        rcases h with h | h
        · exact h ▸ List.mem_cons_self _ _
        · exact List.mem_cons_of_mem _ (ih h)

lemma removeAll_of_not_mem {c : Char} {l : List Char}
    (h : c ∉ l) : removeAll c l = l := by
  induction l with
  | nil => rfl
  | cons x xs ih =>
      simp only [List.mem_cons, not_or] at h
      have hxc : ¬x = c := fun hx => h.1 hx.symm
      simp [removeAll, hxc, ih h.2]

lemma removeAll_comm (a b : Char) (l : List Char) :
    removeAll a (removeAll b l) = removeAll b (removeAll a l) := by
  induction l with
  | nil => rfl
  | cons x xs ih =>
      by_cases hb : x = b <;> by_cases ha : x = a
      · simp only [removeAll, if_pos hb, if_pos ha]; exact ih
      · simp only [removeAll, if_pos hb, if_neg ha, if_pos hb]; exact ih
      · simp only [removeAll, if_neg hb, if_pos ha, if_neg hb]; exact ih
      · simp only [removeAll, if_neg hb, if_neg ha]
        exact congrArg (x :: ·) ih

lemma sanitize_idem (l : List Char) : sanitize (sanitize l) = sanitize l := by
  unfold sanitize
  rw [removeAll_comm '\n' '\r',
      removeAll_of_not_mem (not_mem_removeAll '\n' l),
      removeAll_of_not_mem (not_mem_removeAll '\r' (removeAll '\n' l))]

/-- Claim C5: `sanitize` is total (it is a Lean function, defined on every
string) and idempotent, and its result contains no `'\n'` and no `'\r'`. -/
theorem sanitize_idempotent_and_strips (s : String) :
    sanitizeStr (sanitizeStr s) = sanitizeStr s ∧
    '\n' ∉ (sanitizeStr s).data ∧ '\r' ∉ (sanitizeStr s).data := by
  refine ⟨?_, ?_, ?_⟩
  · show (⟨sanitize (sanitize s.data)⟩ : String) = ⟨sanitize s.data⟩
    rw [sanitize_idem]
  · intro h
    exact not_mem_removeAll '\n' s.data (mem_of_mem_removeAll h)
  · exact not_mem_removeAll '\r' (removeAll '\n' s.data)

/-! ### Lemmas about the value table -/

lemma tableGet_tableInsert_self (k v : String) (t : Table) :
    tableGet k (tableInsert k v t) = some v := by
  induction t with
  | nil => simp [tableInsert, tableGet]
  | cons p t ih =>
      by_cases h : p.1 = k <;> simp [tableInsert, tableGet, h, ih]

lemma tableGet_tableInsert_ne {k k' : String} (v : String) (t : Table)
    (h : k' ≠ k) : tableGet k (tableInsert k' v t) = tableGet k t := by
  induction t with
  | nil => simp [tableInsert, tableGet, h]
  | cons p t ih =>
      by_cases hp : p.1 = k'
      · simp [tableInsert, tableGet, hp, h]
      · by_cases hk : p.1 = k <;>
          simp [tableInsert, tableGet, hp, hk, ih, Ne.symm h]

/-! ### Claim C4: the key stored for a value record -/

lemma goTitleAux_of_not_sep {l : List Char} {prev : Char}
    (h : ∀ c ∈ l, goIsSeparator c = false) (hp : goIsSeparator prev = false) :
    goTitleAux prev l = l := by
  induction l generalizing prev with
  | nil => rfl
  | cons c cs ih =>
      simp only [goTitleAux, hp, Bool.false_eq_true, if_false]
      exact congrArg _ (ih (fun x hx => h x (List.mem_cons_of_mem _ hx))
        (h c (List.mem_cons_self _ _)))

lemma goTitleStr_single_word {n : String}
    (h : ∀ c ∈ n.data, goIsSeparator c = false) :
    goTitleStr n = specCapitalizeFirst n := by
  unfold goTitleStr goTitle specCapitalizeFirst
  match hd : n.data with
  | [] => simp [goTitleAux]
  | c :: cs =>
      have hsep : goIsSeparator ' ' = true := by decide
      have hcs : ∀ x ∈ cs, goIsSeparator x = false := by
        intro x hx; exact h x (hd ▸ List.mem_cons_of_mem _ hx)
      have hc : goIsSeparator c = false := h c (hd ▸ List.mem_cons_self _ _)
      simp [goTitleAux, hsep, goToTitle, goTitleAux_of_not_sep hcs hc]

/-- Claim C4, counterexample: for the multi-word source name `"foo bar"`,
the supervisor stores the value under `strings.Title`'s key `"Foo Bar"`
(every word capitalized), not under `"Foo bar"` (first letter only) as the
claim states; the lookup at the claimed key comes back empty. -/
theorem title_multiword_counterexample :
    goTitleStr "foo bar" ≠ specCapitalizeFirst "foo bar" ∧
    (spewModel (fun _ => ("", true)) (fun _ => "") true
        ⟨"", [⟨"l", "listen", "x"⟩]⟩ [.outE "foo bar" "v"]).table
      = [("Foo Bar", "v")] ∧
    tableGet (specCapitalizeFirst "foo bar")
      (spewModel (fun _ => ("", true)) (fun _ => "") true
        ⟨"", [⟨"l", "listen", "x"⟩]⟩ [.outE "foo bar" "v"]).table = none := by
  refine ⟨by decide, by decide, by decide⟩

/-- Claim C4 (amended): on a value record `(n, v)` the supervisor stores
the sanitized value under the key `strings.Title(n)` — the first letter of
every word uppercased — and for source names made of non-separator
characters only (single words), that key coincides with the claim's
first-letter capitalization. -/
theorem value_record_stored_key (eval : Table → String) (st : LoopState)
    (n v : String) (rest : List Event) :
    runLoop eval st (.outE n v :: rest) =
      runLoop eval
        ⟨tableInsert (goTitleStr n) (sanitizeStr v) st.table,
         st.writes ++ [eval (tableInsert (goTitleStr n) (sanitizeStr v) st.table)]⟩
        rest ∧
    tableGet (goTitleStr n)
        (tableInsert (goTitleStr n) (sanitizeStr v) st.table)
      = some (sanitizeStr v) ∧
    ((∀ c ∈ n.data, goIsSeparator c = false) →
      goTitleStr n = specCapitalizeFirst n) := by
  exact ⟨rfl, tableGet_tableInsert_self _ _ _, goTitleStr_single_word⟩

/-- Witness for `value_record_stored_key` at the single-word name
`"date"` and value `"x\n"`. -/
theorem value_record_stored_key_witness :
    tableGet (goTitleStr "date")
        (tableInsert (goTitleStr "date") (sanitizeStr "x\n") [])
      = some (sanitizeStr "x\n") ∧
    goTitleStr "date" = specCapitalizeFirst "date" := by
  have h := value_record_stored_key (fun _ => "") ⟨[], []⟩ "date" "x\n" []
  exact ⟨h.2.1, h.2.2 (by decide)⟩

/-! ### Claim C2: timer duration parsing -/

/-- Claim C2, counterexample: for the type string `"timer"` (which
contains `"timer"` but has no `:`), `timerSource` does not report a
duration-parse RunError on the error channel; `strings.Split` yields the
single-element list `["timer"]` and the access `parts[1]` is an index
out-of-range runtime panic. -/
theorem timer_no_colon_counterexample :
    goContainsStr "timer" "timer" = true ∧
    timerStart (fun _ => false) ⟨"n", "timer", "c"⟩
      = TimerStartResult.indexOutOfRange := by
  exact ⟨by decide, by decide⟩

/-- Claim C2 (amended): for a timer-typed source, when the type string has
a `:` (so `parts[1]` exists) and the suffix after the first `:` fails to
parse as a duration, `timerSource` reports the duration-parse RunError on
the shared error channel; when it parses, the ticker loop is entered; but
when the type string has no `:`, the goroutine panics with an index
out-of-range error instead of reporting a RunError. -/
theorem timer_duration_parse_dispatch (parseOk : String → Bool) (s : Source)
    (h : goContainsStr s.TypeStr "timer" = true) :
    ((goSplit s.TypeStr ':').length ≤ 1 →
        timerStart parseOk s = .indexOutOfRange) ∧
    (∀ suffix, (goSplit s.TypeStr ':')[1]? = some suffix →
        parseOk suffix = false →
        timerStart parseOk s = .emitErr (.durationParse suffix)) ∧
    (∀ suffix, (goSplit s.TypeStr ':')[1]? = some suffix →
        parseOk suffix = true → timerStart parseOk s = .proceed suffix) := by
  refine ⟨?_, ?_, ?_⟩
  · intro hlen
    simp [timerStart, List.getElem?_eq_none hlen]
  · intro suffix hs hp
    simp [timerStart, hs, hp]
  · intro suffix hs hp
    simp [timerStart, hs, hp]

/-- Witness for `timer_duration_parse_dispatch` at the timer source with
type `"timer:xx"` and a failing duration parse. -/
theorem timer_duration_parse_dispatch_witness :
    goContainsStr "timer:xx" "timer" = true ∧
    timerStart (fun _ => false) ⟨"n", "timer:xx", "c"⟩
      = .emitErr (.durationParse "xx") := by
  refine ⟨by decide, ?_⟩
  exact (timer_duration_parse_dispatch (fun _ => false) ⟨"n", "timer:xx", "c"⟩
    (by decide)).2.1 "xx" (by decide) rfl

/-! ### Claim C1: a listener's error-stream line -/

/-- Claim C1, counterexample: a run of `Spew` with one listener source
whose error stream emits the line `"oops\n"` does not terminate with an
error — the line is forwarded to `outChan` and rendered as a value, and
when external cancellation later fires the run returns success (`nil`). -/
theorem listener_stderr_counterexample :
    (spewModel (fun _ => ("", true)) (fun _ => "") true
        ⟨"", [⟨"r", "listen", "x"⟩]⟩
        ((listenerLoop ⟨"r", "listen", "x"⟩ [.stderrLine "oops\n"]).map emitEvent
          ++ [.cancel])).res = .success ∧
    (spewModel (fun _ => ("", true)) (fun _ => "") true
        ⟨"", [⟨"r", "listen", "x"⟩]⟩
        ((listenerLoop ⟨"r", "listen", "x"⟩ [.stderrLine "oops\n"]).map emitEvent
          ++ [.cancel])).table = [("R", "oops")] := by
  exact ⟨by decide, by decide⟩

/-- Claim C1 (amended): in `spew.go`'s `listenerSource`, a line delivered
from the error stream is forwarded to the shared output channel as a value
record (not to the error channel) and the listener driver then returns;
the run itself does not terminate with an error on account of the line. -/
theorem listener_stderr_forwarded (s : Source) (line : String)
    (rest : List LDeliv) :
    listenerLoop s (.stderrLine line :: rest) = [.toOut s.Name line] := rfl

/-! ### Claim C9: per-source ordering of listener records -/

/-- Claim C9: every stdout line delivered to the listener loop is
forwarded to the supervisor as a value record in the order generated (no
reordering, no coalescing), and for a listener whose stream has produced
`"a\nb\nc\n"` the supervisor renders exactly three times, the table's
field for the source being `"a"`, then `"b"`, then `"c"` (the render
oracle here projects that field). -/
theorem listener_lines_in_order :
    (∀ (s : Source) (lines : List String),
        listenerLoop s (lines.map LDeliv.stdoutLine)
          = lines.map (fun l => Emission.toOut s.Name l)) ∧
    readLinesModel "a\nb\nc\n" = ["a\n", "b\n", "c\n"] ∧
    (spewModel (fun _ => ("", true)) (fun t => (tableGet "R" t).getD "") true
        ⟨"", [⟨"r", "listen", "x"⟩]⟩
        ((listenerLoop ⟨"r", "listen", "x"⟩
            ((readLinesModel "a\nb\nc\n").map LDeliv.stdoutLine)).map
          emitEvent)).writes = ["a", "b", "c"] := by
  refine ⟨?_, by decide, by decide⟩
  intro s lines
  induction lines with
  | nil => rfl
  | cons l ls ih => simp [listenerLoop, ih]

/-! ### Lemmas about the event loop -/

lemma runLoop_append_outs (eval : Table → String) :
    ∀ (pre : List Event) (st : LoopState) (tr : List Event),
      (∀ e ∈ pre, isOutEvent e = true) →
      runLoop eval st (pre ++ tr) = runLoop eval (runLoop eval st pre).2 tr := by
  intro pre
  induction pre with
  | nil => intro st tr _; rfl
  | cons e es ih =>
      intro st tr h
      cases e with
      | cancel => simp [isOutEvent] at h
      | errE e' => simp [isOutEvent] at h
      | outE n v =>
          simp only [List.cons_append, runLoop]
          exact ih _ tr fun x hx => h x (List.mem_cons_of_mem _ hx)

lemma runLoop_outs_running (eval : Table → String) :
    ∀ (pre : List Event) (st : LoopState),
      (∀ e ∈ pre, isOutEvent e = true) → (runLoop eval st pre).1 = .running := by
  intro pre
  induction pre with
  | nil => intro st _; rfl
  | cons e es ih =>
      intro st h
      cases e with
      | cancel => simp [isOutEvent] at h
      | errE e' => simp [isOutEvent] at h
      | outE n v =>
          simp only [runLoop]
          exact ih _ fun x hx => h x (List.mem_cons_of_mem _ hx)

/-! ### Claim C7: external cancellation -/

/-- Claim C7: when the cancellation delivery is observed by the event
loop (after any number of value records and with the dispatch phase
having succeeded), `Spew` returns success (`nil`), and no event after the
cancellation is handled: the renders written and the value table are
exactly those of the run that stops at the cancellation point. -/
theorem cancellation_returns_success (cmd : String → String × Bool)
    (eval : Table → String) (c : Config) (pre post : List Event)
    (hsetup : (setupPhase cmd eval c.Sources ⟨[], []⟩).2.2 = none)
    (hpre : ∀ e ∈ pre, isOutEvent e = true) :
    (spewModel cmd eval true c (pre ++ .cancel :: post)).res = .success ∧
    (spewModel cmd eval true c (pre ++ .cancel :: post)).writes
      = (spewModel cmd eval true c pre).writes ∧
    (spewModel cmd eval true c (pre ++ .cancel :: post)).table
      = (spewModel cmd eval true c pre).table := by
  rcases hsp : setupPhase cmd eval c.Sources ⟨[], []⟩ with ⟨st, ls, err⟩
  rw [hsp] at hsetup
  simp only at hsetup
  subst hsetup
  simp only [spewModel, hsp, runLoop_append_outs eval pre st (.cancel :: post) hpre,
    runLoop]
  exact ⟨trivial, trivial, trivial⟩

/-- Witness for `cancellation_returns_success`: one value record, then
cancellation, then a would-be error that is never handled. -/
theorem cancellation_returns_success_witness :
    (spewModel (fun _ => ("", true)) (fun _ => "") true ⟨"", []⟩
        ([.outE "a" "b"] ++ .cancel :: [.errE .readFail])).res = .success ∧
    (spewModel (fun _ => ("", true)) (fun _ => "") true ⟨"", []⟩
        ([.outE "a" "b"] ++ .cancel :: [.errE .readFail])).writes
      = (spewModel (fun _ => ("", true)) (fun _ => "") true ⟨"", []⟩
          [.outE "a" "b"]).writes ∧
    (spewModel (fun _ => ("", true)) (fun _ => "") true ⟨"", []⟩
        ([.outE "a" "b"] ++ .cancel :: [.errE .readFail])).table
      = (spewModel (fun _ => ("", true)) (fun _ => "") true ⟨"", []⟩
          [.outE "a" "b"]).table := by
  exact cancellation_returns_success (fun _ => ("", true)) (fun _ => "") ⟨"", []⟩
    [.outE "a" "b"] [.errE .readFail] (by decide) (by decide)

/-! ### Claim C8: error propagation and guaranteed cancellation -/

/-- Claim C8: when a producer's error is the first non-record delivery the
event loop observes, the supervisor aborts immediately and returns that
very error as the run's result; and on every exit path taken after the
cancellable context exists (success, error, or cancellation — i.e.,
whenever the modelled run returns at all with the template parsed), the
`defer cancel()` fires. -/
theorem error_aborts_and_cancel_fires (cmd : String → String × Bool)
    (eval : Table → String) (c : Config) (pre : List Event) (e : SpewError)
    (post : List Event)
    (hsetup : (setupPhase cmd eval c.Sources ⟨[], []⟩).2.2 = none)
    (hpre : ∀ ev ∈ pre, isOutEvent ev = true) :
    (spewModel cmd eval true c (pre ++ .errE e :: post)).res = .failure e ∧
    ∀ (c' : Config) (trace : List Event),
      returned (spewModel cmd eval true c' trace).res = true →
      (spewModel cmd eval true c' trace).cancelFired = true := by
  constructor
  · rcases hsp : setupPhase cmd eval c.Sources ⟨[], []⟩ with ⟨st, ls, err⟩
    rw [hsp] at hsetup
    simp only at hsetup
    subst hsetup
    simp only [spewModel, hsp, runLoop_append_outs eval pre st (.errE e :: post) hpre,
      runLoop]
  · intro c' trace h
    rcases hsp : setupPhase cmd eval c'.Sources ⟨[], []⟩ with ⟨st, ls, err⟩
    cases err with
    | none =>
        simp only [spewModel, hsp] at h ⊢
        exact h
    | some e' => simp only [spewModel, hsp]

/-- Witness for `error_aborts_and_cancel_fires`: a read-failure error after
one value record aborts the run with that error. -/
theorem error_aborts_and_cancel_fires_witness :
    (spewModel (fun _ => ("", true)) (fun _ => "") true ⟨"", []⟩
        ([.outE "a" "b"] ++ .errE .readFail :: [.cancel])).res
      = .failure .readFail ∧
    returned (spewModel (fun _ => ("", true)) (fun _ => "") true ⟨"", []⟩
        [.cancel]).res = true ∧
    (spewModel (fun _ => ("", true)) (fun _ => "") true ⟨"", []⟩
        [.cancel]).cancelFired = true := by
  have h := error_aborts_and_cancel_fires (fun _ => ("", true)) (fun _ => "")
    ⟨"", []⟩ [.outE "a" "b"] .readFail [.cancel] (by decide) (by decide)
  exact ⟨h.1, by decide, h.2 ⟨"", []⟩ [.cancel] (by decide)⟩

/-! ### Claim C3: unsupported source type -/

lemma dispatchable_false_elim {s : Source} (hs : dispatchable s = false) :
    goContainsStr s.TypeStr "timer" = false ∧
    goContainsStr s.TypeStr "listen" = false ∧
    goContainsStr s.TypeStr "once" = false := by
  unfold dispatchable at hs
  simp only [Bool.or_eq_false_iff] at hs
  exact ⟨hs.1.1, hs.1.2, hs.2⟩

lemma setupPhase_unsupported (cmd : String → String × Bool)
    (eval : Table → String) (s : Source) (post : List Source)
    (hs : dispatchable s = false) :
    ∀ (pre : List Source) (st : LoopState),
      (∀ x ∈ pre, dispatchable x = true) →
      (∀ x ∈ pre, isOnceDispatch x = true → (cmd x.Script).2 = true) →
      (setupPhase cmd eval (pre ++ s :: post) st).2.1 = launchesOf pre ∧
      (setupPhase cmd eval (pre ++ s :: post) st).2.2
        = some (.unsupportedType s.TypeStr) := by
  intro pre
  induction pre with
  | nil =>
      intro st _ _
      obtain ⟨ht, hl, ho⟩ := dispatchable_false_elim hs
      simp [setupPhase, launchesOf, ht, hl, ho]
  | cons x xs ih =>
      intro st h1 h2
      have htail1 : ∀ y ∈ xs, dispatchable y = true :=
        fun y hy => h1 y (List.mem_cons_of_mem _ hy)
      have htail2 : ∀ y ∈ xs, isOnceDispatch y = true → (cmd y.Script).2 = true :=
        fun y hy => h2 y (List.mem_cons_of_mem _ hy)
      by_cases ht : goContainsStr x.TypeStr "timer" = true
      · rcases hrec : setupPhase cmd eval (xs ++ s :: post) st with ⟨st', ls, err⟩
        have hxs := ih st htail1 htail2
        rw [hrec] at hxs
        simp only at hxs
        simp [setupPhase, ht, hrec, launchesOf, hxs.1, hxs.2]
      · by_cases hl : goContainsStr x.TypeStr "listen" = true
        · rcases hrec : setupPhase cmd eval (xs ++ s :: post) st with ⟨st', ls, err⟩
          have hxs := ih st htail1 htail2
          rw [hrec] at hxs
          simp only at hxs
          simp [setupPhase, ht, hl, hrec, launchesOf, hxs.1, hxs.2]
        · have ho : goContainsStr x.TypeStr "once" = true := by
            have := h1 x (List.mem_cons_self _ _)
            unfold dispatchable at this
            simp only [Bool.or_eq_true] at this
            rcases this with (h | h) | h
            · exact absurd h ht
            · exact absurd h hl
            · exact h
          have honce : isOnceDispatch x = true := by
            unfold isOnceDispatch
            simp [ht, hl, ho, Bool.not_eq_true']
          rcases hc : cmd x.Script with ⟨o, ok⟩
          have hok : ok = true := by
            have := h2 x (List.mem_cons_self _ _) honce
            rw [hc] at this
            exact this
          subst hok
          have hstep : setupPhase cmd eval ((x :: xs) ++ s :: post) st
              = setupPhase cmd eval (xs ++ s :: post)
                  ⟨tableInsert (goTitleStr x.Name) (sanitizeStr o) st.table,
                   st.writes ++ [eval (tableInsert (goTitleStr x.Name)
                     (sanitizeStr o) st.table)]⟩ := by
            simp [setupPhase, ht, hl, ho, hc]
          rw [hstep]
          have hxs := ih
            ⟨tableInsert (goTitleStr x.Name) (sanitizeStr o) st.table,
             st.writes ++ [eval (tableInsert (goTitleStr x.Name)
               (sanitizeStr o) st.table)]⟩ htail1 htail2
          simp [launchesOf, ht, hl, hxs.1, hxs.2]

/-- Claim C3, counterexample: in the config
`[{a, timer:5s, x}, {b, polling, y}]` the run does fail with
`unsupported source type: polling`, but not before launching another
source — the timer source earlier in the list has already been launched
when the failure occurs. -/
theorem unsupported_type_counterexample :
    (spewModel (fun _ => ("", true)) (fun _ => "") true
        ⟨"", [⟨"a", "timer:5s", "x"⟩, ⟨"b", "polling", "y"⟩]⟩ []).res
      = .failure (.unsupportedType "polling") ∧
    (spewModel (fun _ => ("", true)) (fun _ => "") true
        ⟨"", [⟨"a", "timer:5s", "x"⟩, ⟨"b", "polling", "y"⟩]⟩ []).launched
      = [.timer ⟨"a", "timer:5s", "x"⟩] := by
  exact ⟨by decide, by decide⟩

/-- Claim C3 (amended): when the dispatch loop reaches the first source
whose type contains none of `"timer"`, `"listen"`, `"once"` (in that
priority order), `Spew` fails with the `unsupported source type` error
before launching or running any LATER source — the launched producers are
exactly those of the sources earlier in the list (which have already been
dispatched). -/
theorem unsupported_type_aborts_dispatch (cmd : String → String × Bool)
    (eval : Table → String) (tmpl : String) (pre : List Source) (s : Source)
    (post : List Source) (trace : List Event)
    (h1 : ∀ x ∈ pre, dispatchable x = true)
    (h2 : ∀ x ∈ pre, isOnceDispatch x = true → (cmd x.Script).2 = true)
    (hs : dispatchable s = false) :
    (spewModel cmd eval true ⟨tmpl, pre ++ s :: post⟩ trace).res
      = .failure (.unsupportedType s.TypeStr) ∧
    (spewModel cmd eval true ⟨tmpl, pre ++ s :: post⟩ trace).launched
      = launchesOf pre := by
  have h := setupPhase_unsupported cmd eval s post hs pre ⟨[], []⟩ h1 h2
  rcases hsp : setupPhase cmd eval (pre ++ s :: post) ⟨[], []⟩ with ⟨st, ls, err⟩
  rw [hsp] at h
  simp only at h
  obtain ⟨hls, herr⟩ := h
  subst hls herr
  simp only [spewModel, hsp]
  refine ⟨?_, ?_⟩ <;> trivial

/-- Witness for `unsupported_type_aborts_dispatch` at the config
`[{a, timer:5s, x}, {b, polling, y}]`. -/
theorem unsupported_type_aborts_dispatch_witness :
    (spewModel (fun _ => ("", true)) (fun _ => "") true
        ⟨"", [⟨"a", "timer:5s", "x"⟩] ++ ⟨"b", "polling", "y"⟩ :: []⟩
        [.cancel]).res = .failure (.unsupportedType "polling") ∧
    (spewModel (fun _ => ("", true)) (fun _ => "") true
        ⟨"", [⟨"a", "timer:5s", "x"⟩] ++ ⟨"b", "polling", "y"⟩ :: []⟩
        [.cancel]).launched = launchesOf [⟨"a", "timer:5s", "x"⟩] := by
  exact unsupported_type_aborts_dispatch (fun _ => ("", true)) (fun _ => "")
    "" [⟨"a", "timer:5s", "x"⟩] ⟨"b", "polling", "y"⟩ [] [.cancel]
    (by decide) (by decide) (by decide)

/-! ### Claims C6 and C10: configs of once sources only -/

lemma isOnceDispatch_elim {s : Source} (h : isOnceDispatch s = true) :
    goContainsStr s.TypeStr "timer" = false ∧
    goContainsStr s.TypeStr "listen" = false ∧
    goContainsStr s.TypeStr "once" = true := by
  unfold isOnceDispatch at h
  simp only [Bool.and_eq_true, Bool.not_eq_true'] at h
  exact ⟨h.1.1, h.1.2, h.2⟩

lemma setupPhase_once (cmd : String → String × Bool) (eval : Table → String) :
    ∀ (srcs : List Source) (st : LoopState),
      (∀ s ∈ srcs, isOnceDispatch s = true) →
      (∀ s ∈ srcs, (cmd s.Script).2 = true) →
      setupPhase cmd eval srcs st
        = (⟨onceTable cmd srcs st.table,
            st.writes ++ onceWrites cmd eval srcs st.table⟩, [], none) := by
  intro srcs
  induction srcs with
  | nil => intro st _ _; simp [setupPhase, onceTable, onceWrites]
  | cons s rest ih =>
      intro st h1 h2
      obtain ⟨ht, hl, ho⟩ := isOnceDispatch_elim (h1 s (List.mem_cons_self _ _))
      rcases hc : cmd s.Script with ⟨o, ok⟩
      have hok : ok = true := by
        have := h2 s (List.mem_cons_self _ _)
        rw [hc] at this
        exact this
      subst hok
      have hstep : setupPhase cmd eval (s :: rest) st
          = setupPhase cmd eval rest
              ⟨tableInsert (goTitleStr s.Name) (sanitizeStr o) st.table,
               st.writes ++ [eval (tableInsert (goTitleStr s.Name)
                 (sanitizeStr o) st.table)]⟩ := by
        simp [setupPhase, ht, hl, ho, hc]
      rw [hstep, ih _ (fun y hy => h1 y (List.mem_cons_of_mem _ hy))
        (fun y hy => h2 y (List.mem_cons_of_mem _ hy))]
      simp [onceTable, onceWrites, hc, List.append_assoc]

lemma onceWrites_length (cmd : String → String × Bool) (eval : Table → String) :
    ∀ (srcs : List Source) (t : Table),
      (onceWrites cmd eval srcs t).length = srcs.length := by
  intro srcs
  induction srcs with
  | nil => intro t; rfl
  | cons s rest ih => intro t; simp [onceWrites, ih]

lemma onceWrites_getLast (cmd : String → String × Bool) (eval : Table → String) :
    ∀ (srcs : List Source) (t : Table), srcs ≠ [] →
      (onceWrites cmd eval srcs t).getLast?
        = some (eval (onceTable cmd srcs t)) := by
  intro srcs
  induction srcs with
  | nil => intro t h; exact absurd rfl h
  | cons s rest ih =>
      intro t _
      cases rest with
      | nil => simp [onceWrites, onceTable]
      | cons b bs =>
          have hrec := ih (tableInsert (goTitleStr s.Name)
            (sanitizeStr (cmd s.Script).1) t) (by simp)
          simp only [onceWrites, onceTable] at hrec ⊢
          rw [List.getLast?_cons_cons] at *
          · exact hrec

lemma tableGet_onceTable_not_mem (cmd : String → String × Bool) (k : String) :
    ∀ (srcs : List Source) (t : Table),
      (∀ s ∈ srcs, goTitleStr s.Name ≠ k) →
      tableGet k (onceTable cmd srcs t) = tableGet k t := by
  intro srcs
  induction srcs with
  | nil => intro t _; rfl
  | cons s rest ih =>
      intro t h
      simp only [onceTable]
      rw [ih _ (fun y hy => h y (List.mem_cons_of_mem _ hy)),
        tableGet_tableInsert_ne _ _ (h s (List.mem_cons_self _ _))]

lemma tableGet_onceTable_mem (cmd : String → String × Bool) :
    ∀ (srcs : List Source) (t : Table) (s : Source), s ∈ srcs →
      List.Pairwise (fun a b => goTitleStr a.Name ≠ goTitleStr b.Name) srcs →
      tableGet (goTitleStr s.Name) (onceTable cmd srcs t)
        = some (sanitizeStr (cmd s.Script).1) := by
  intro srcs
  induction srcs with
  | nil => intro t s hs _; simp at hs
  | cons a rest ih =>
      intro t s hs hp
      rcases List.mem_cons.mp hs with h | h
      · subst h
        simp only [onceTable]
        rw [tableGet_onceTable_not_mem cmd _ rest _
          (fun y hy => (List.pairwise_cons.mp hp).1 y hy |>.symm |> Ne.symm ∘ Ne.symm),
          tableGet_tableInsert_self]
      · simp only [onceTable]
        exact ih _ s h (List.pairwise_cons.mp hp).2

/-- Claim C6: for a nonempty config whose sources all dispatch to the
`"once"` branch, whose commands all succeed, and whose Title-cased names
are pairwise distinct, no producer is launched, each once source runs
inline before the event loop (one render per source, so with the empty
trace the run is still blocked in the loop afterwards), the final table is
the fold of the sources' sanitized outputs, the last render written is the
template evaluated on that fully-populated table, and every source's
sanitized output is present in it under the source's Title-cased name. -/
theorem once_only_final_render (cmd : String → String × Bool)
    (eval : Table → String) (tmpl : String) (srcs : List Source)
    (h1 : ∀ s ∈ srcs, isOnceDispatch s = true)
    (h2 : ∀ s ∈ srcs, (cmd s.Script).2 = true)
    (h3 : srcs ≠ [])
    (h4 : List.Pairwise (fun a b => goTitleStr a.Name ≠ goTitleStr b.Name) srcs) :
    (spewModel cmd eval true ⟨tmpl, srcs⟩ []).launched = [] ∧
    (spewModel cmd eval true ⟨tmpl, srcs⟩ []).writes.length = srcs.length ∧
    (spewModel cmd eval true ⟨tmpl, srcs⟩ []).table = onceTable cmd srcs [] ∧
    (spewModel cmd eval true ⟨tmpl, srcs⟩ []).writes.getLast?
      = some (eval (onceTable cmd srcs [])) ∧
    ∀ s ∈ srcs, tableGet (goTitleStr s.Name)
        (spewModel cmd eval true ⟨tmpl, srcs⟩ []).table
      = some (sanitizeStr (cmd s.Script).1) := by
  have hsp := setupPhase_once cmd eval srcs ⟨[], []⟩ h1 h2
  simp only [spewModel, hsp, runLoop, List.nil_append]
  refine ⟨trivial, onceWrites_length cmd eval srcs [], trivial,
    onceWrites_getLast cmd eval srcs [] h3, ?_⟩
  intro s hs
  exact tableGet_onceTable_mem cmd srcs [] s hs h4

/-- Witness for `once_only_final_render` on a two-source once-only config. -/
theorem once_only_final_render_witness :
    (spewModel (fun c => (c ++ "!\n", true))
        (fun t => String.join (t.map (fun p => p.2))) true
        ⟨"x", [⟨"date", "once", "date"⟩, ⟨"user", "once", "whoami"⟩]⟩ []).writes.getLast?
      = some ((fun t => String.join (t.map (fun p => p.2)))
          (onceTable (fun c => (c ++ "!\n", true))
            [⟨"date", "once", "date"⟩, ⟨"user", "once", "whoami"⟩] [])) ∧
    (spewModel (fun c => (c ++ "!\n", true))
        (fun t => String.join (t.map (fun p => p.2))) true
        ⟨"x", [⟨"date", "once", "date"⟩, ⟨"user", "once", "whoami"⟩]⟩ []).launched
      = [] := by
  have h := once_only_final_render (fun c => (c ++ "!\n", true))
    (fun t => String.join (t.map (fun p => p.2))) "x"
    [⟨"date", "once", "date"⟩, ⟨"user", "once", "whoami"⟩]
    (by decide) (by intro s _; rfl) (by decide) (by decide)
  exact ⟨h.2.2.2.1, h.1⟩

/-- Claim C10: for a config whose sources all dispatch to the `"once"`
branch with succeeding commands, `Spew` launches no producer and never
returns on its own: with no deliveries it is still blocked in the event
loop, and for every trace consisting only of cancellation deliveries (the
only deliveries possible with no producers), the run returns exactly when
a cancellation occurs — and then with success, never any other way. -/
theorem once_only_blocks_until_cancel (cmd : String → String × Bool)
    (eval : Table → String) (tmpl : String) (srcs : List Source)
    (h1 : ∀ s ∈ srcs, isOnceDispatch s = true)
    (h2 : ∀ s ∈ srcs, (cmd s.Script).2 = true) :
    (spewModel cmd eval true ⟨tmpl, srcs⟩ []).launched = [] ∧
    (spewModel cmd eval true ⟨tmpl, srcs⟩ []).res = .running ∧
    ∀ trace : List Event, (∀ e ∈ trace, e = .cancel) →
      ((spewModel cmd eval true ⟨tmpl, srcs⟩ trace).res = .running ↔ trace = []) ∧
      (trace ≠ [] →
        (spewModel cmd eval true ⟨tmpl, srcs⟩ trace).res = .success) := by
  have hsp := setupPhase_once cmd eval srcs ⟨[], []⟩ h1 h2
  refine ⟨by simp [spewModel, hsp], by simp [spewModel, hsp, runLoop], ?_⟩
  intro trace htr
  cases trace with
  | nil => simp [spewModel, hsp, runLoop]
  | cons e es =>
      have he : e = .cancel := htr e (List.mem_cons_self _ _)
      subst he
      simp [spewModel, hsp, runLoop]

/-- Witness for `once_only_blocks_until_cancel` on a one-source config. -/
theorem once_only_blocks_until_cancel_witness :
    (spewModel (fun _ => ("out", true)) (fun _ => "") true
        ⟨"x", [⟨"date", "once", "date"⟩]⟩ []).launched = [] ∧
    (spewModel (fun _ => ("out", true)) (fun _ => "") true
        ⟨"x", [⟨"date", "once", "date"⟩]⟩ []).res = .running ∧
    (spewModel (fun _ => ("out", true)) (fun _ => "") true
        ⟨"x", [⟨"date", "once", "date"⟩]⟩ [.cancel]).res = .success := by
  have h := once_only_blocks_until_cancel (fun _ => ("out", true)) (fun _ => "")
    "x" [⟨"date", "once", "date"⟩] (by decide) (by intro s _; rfl)
  exact ⟨h.1, h.2.1, (h.2.2 [.cancel] (by decide)).2 (by decide)⟩

/-! ### Concrete witnesses for the universally quantified claim theorems -/

/-- Witness for `sanitize_idempotent_and_strips` at `"a\r\nb"`. -/
theorem sanitize_idempotent_and_strips_witness :
    sanitizeStr (sanitizeStr "a\r\nb") = sanitizeStr "a\r\nb" ∧
    '\n' ∉ (sanitizeStr "a\r\nb").data ∧ '\r' ∉ (sanitizeStr "a\r\nb").data :=
  sanitize_idempotent_and_strips "a\r\nb"

/-- Witness for `listener_stderr_forwarded` at a concrete schedule. -/
theorem listener_stderr_forwarded_witness :
    listenerLoop ⟨"r", "listen", "x"⟩ [.stderrLine "oops\n", .stdoutLine "a\n"]
      = [.toOut "r" "oops\n"] :=
  listener_stderr_forwarded ⟨"r", "listen", "x"⟩ "oops\n" [.stdoutLine "a\n"]

/-- Witness for `listener_lines_in_order` at a concrete line list. -/
theorem listener_lines_in_order_witness :
    listenerLoop ⟨"r", "listen", "x"⟩ (["a\n", "b\n"].map LDeliv.stdoutLine)
      = ["a\n", "b\n"].map (fun l => Emission.toOut "r" l) :=
  listener_lines_in_order.1 ⟨"r", "listen", "x"⟩ ["a\n", "b\n"]

end SpewModel
